import Mathlib

/-!
Verification of the buffered-reader-writer pipeline (src/ultimate/solution.go,
with the sequential variants in src/unnamed/part_001 and part_002 implementing
the same buffering policy).

The Go program moves data from a `Producer` (method `Next`, returning a slice
of items and an acknowledgement cookie, and method `Commit`) to a `Consumer`
(method `Process`), through three concurrent stages connected by FIFO
channels:

  * `runNext` accumulates fetch results into a bounded buffer and emits
    sealed batches on `batchCh`;
  * `runProcess` consumes batches, calls `Process`, and on success forwards
    the batch's cookies one at a time on `cookiesCh`;
  * `runCommit` consumes cookies and calls `Commit` on each.

Each channel is a strict FIFO with a single producer and a single consumer,
so the sequence of values crossing each stage boundary, and hence the
sequence of collaborator calls made by each stage, is the one obtained by
running the stages in sequence: fetch to completion, then process over the
emitted batches, then commit over the emitted cookies.  The embedding below
models that canonical (drain-to-completion) schedule.  Collaborators are
modelled as the sequences of results their methods return: the producer as
the list of `Next` results returned before the end-of-stream sentinel
(`ErrEofCommitCookie`), the consumer and the committer as functions from the
call index to the success of that call.
-/

namespace BufferedPipe

/-- Result of one `Producer.Next` call that is not the end-of-stream
sentinel: either a successful fetch (a slice of items plus a cookie) or a
failure (`err != nil`).  The producer itself is modelled as the list of
these results returned before `ErrEofCommitCookie`. -/
inductive NextRes (α : Type) where
  | ok (items : List α) (cookie : Int)
  | err
deriving DecidableEq

/-- Go's `type batch struct { buf []any; cookies []int }`. -/
structure Batch (α : Type) where
  buf : List α
  cookies : List Int
deriving DecidableEq

/-- One iteration of the accumulation logic in `runNext`
(src/ultimate/solution.go lines 154-163): if the new items would overflow
`maxItems`, the current buffer is sealed (first component) and a fresh
buffer is started; the new items and the new cookie are then appended to
the (possibly fresh) buffer. -/
def nextStep {α : Type} (maxItems : Nat) (st : Batch α) (items : List α)
    (cookie : Int) : Option (Batch α) × Batch α :=
  if st.buf.length + items.length > maxItems then
    (some st, ⟨items, [cookie]⟩)
  else
    (none, ⟨st.buf ++ items, st.cookies ++ [cookie]⟩)

/-- The fetch stage `runNext` (src/ultimate/solution.go lines 131-166),
run over the producer's results.  Returns the list of batches sent on
`batchCh`, in order, and whether the stage returned `ErrNextFailed`.
At end of stream the final buffer is sent only if it holds at least one
item; on a producer error nothing further is sent. -/
def runNext {α : Type} (maxItems : Nat) (st : Batch α) :
    List (NextRes α) → List (Batch α) × Bool
  | [] => (if st.buf.length > 0 then [st] else [], false)
  | NextRes.err :: _ => ([], true)
  | NextRes.ok items cookie :: rest =>
      let s := nextStep maxItems st items cookie
      let r := runNext maxItems s.2 rest
      (s.1.toList ++ r.1, r.2)

/-- `runNext` with the accumulation step written out (the form the
equational lemmas below use). -/
theorem runNext_ok_cons {α : Type} (maxItems : Nat) (st : Batch α)
    (items : List α) (cookie : Int) (rest : List (NextRes α)) :
    runNext maxItems st (NextRes.ok items cookie :: rest) =
      if st.buf.length + items.length > maxItems then
        (st :: (runNext maxItems ⟨items, [cookie]⟩ rest).1,
          (runNext maxItems ⟨items, [cookie]⟩ rest).2)
      else
        runNext maxItems ⟨st.buf ++ items, st.cookies ++ [cookie]⟩ rest := by
  show (let s := nextStep maxItems st items cookie
        let r := runNext maxItems s.2 rest
        (s.1.toList ++ r.1, r.2)) = _
  unfold nextStep
  split <;> simp

/-- Events of the process stage, in stage order: a `Process` call with its
argument and result, or a cookie forwarded onto `cookiesCh`. -/
inductive ProcEv (α : Type) where
  | call (items : List α) (ok : Bool)
  | emit (cookie : Int)
deriving DecidableEq

/-- The process stage `runProcess` (src/ultimate/solution.go lines
168-185) over the received batches, with `procRes n` the success of the
n-th `Process` call.  Returns the stage's event sequence and whether it
returned `ErrProcessFailed`.  On success the batch's cookies are emitted
in order; on failure the stage stops and emits nothing further. -/
def runProcess {α : Type} (procRes : Nat → Bool) (n : Nat) :
    List (Batch α) → List (ProcEv α) × Bool
  | [] => ([], false)
  | b :: bs =>
      if procRes n then
        let r := runProcess procRes (n + 1) bs
        (ProcEv.call b.buf true :: (b.cookies.map ProcEv.emit ++ r.1), r.2)
      else
        ([ProcEv.call b.buf false], true)

/-- The cookies forwarded on `cookiesCh`, extracted from the process-stage
events in order. -/
def emitted {α : Type} (evs : List (ProcEv α)) : List Int :=
  evs.filterMap fun e =>
    match e with
    | ProcEv.emit c => some c
    | ProcEv.call _ _ => none

/-- The `Process` calls (argument and result), extracted from the
process-stage events in order. -/
def procCalls {α : Type} (evs : List (ProcEv α)) : List (List α × Bool) :=
  evs.filterMap fun e =>
    match e with
    | ProcEv.call i o => some (i, o)
    | ProcEv.emit _ => none

/-- The commit stage `runCommit` (src/ultimate/solution.go lines 187-198)
over the received cookies, with `commitRes n` the success of the n-th
`Commit` call.  Returns the list of `Commit` calls made (cookie and
result), in receipt order, and whether the stage returned
`ErrCommitFailed`.  On a failed commit the stage stops. -/
def runCommit (commitRes : Nat → Bool) (n : Nat) :
    List Int → List (Int × Bool) × Bool
  | [] => ([], false)
  | c :: cs =>
      if commitRes n then
        let r := runCommit commitRes (n + 1) cs
        ((c, true) :: r.1, r.2)
      else
        ([(c, false)], true)

/-- The three error kinds a stage can report (`ErrNextFailed`,
`ErrProcessFailed`, `ErrCommitFailed`); each stage error wraps its kind
via `fmt.Errorf("%w: ...")`, so `errors.Is` identifies the kind. -/
inductive ErrKind where
  | nextFailed
  | processFailed
  | commitFailed
deriving DecidableEq

/-- `errors.Join` (src/ultimate/solution.go lines 104-107): `nil` when no
errors were collected, otherwise an aggregate holding every error. -/
def errorsJoin (es : List ErrKind) : Option (List ErrKind) :=
  if es.isEmpty then none else some es

/-- `errors.Is` applied to the aggregate returned by the run: the target
kind is matched iff some collected stage error wraps it. -/
def errorsIs (o : Option (List ErrKind)) (k : ErrKind) : Prop :=
  k ∈ o.getD []

instance (o : Option (List ErrKind)) (k : ErrKind) :
    Decidable (errorsIs o k) := by
  unfold errorsIs; infer_instance

/-- Result of one run of `Pipe`: the batches sent on `batchCh`, the
process-stage events, the `Commit` calls, and the error reported by each
stage. -/
structure PipeRes (α : Type) where
  batches : List (Batch α)
  nextErr : Bool
  procEvents : List (ProcEv α)
  procErr : Bool
  commitCalls : List (Int × Bool)
  commitErr : Bool
deriving DecidableEq

/-- The stage errors reported on `errCh` during a run. -/
def stageErrors {α : Type} (r : PipeRes α) : List ErrKind :=
  (if r.nextErr then [ErrKind.nextFailed] else []) ++
    (if r.procErr then [ErrKind.processFailed] else []) ++
      (if r.commitErr then [ErrKind.commitFailed] else [])

/-- `Pipe` (src/ultimate/solution.go lines 110-129): the three stages
composed over the FIFO channels, in the canonical drain-to-completion
schedule. -/
def Pipe {α : Type} (p : List (NextRes α)) (procRes commitRes : Nat → Bool)
    (maxItems : Nat) : PipeRes α :=
  let nr := runNext maxItems ⟨[], []⟩ p
  let pr := runProcess procRes 0 nr.1
  let cr := runCommit commitRes 0 (emitted pr.1)
  ⟨nr.1, nr.2, pr.1, pr.2, cr.1, cr.2⟩

/-- The error returned by the run: `errors.Join` of the reported stage
errors. -/
def PipeRun {α : Type} (r : PipeRes α) : Option (List ErrKind) :=
  errorsJoin (stageErrors r)

/-- `Pipeline.Run`'s error aggregation (src/ultimate/solution.go lines
95-108): each stage reports at most one error; the non-`nil` reports are
joined. -/
def PipelineRun (reports : List (Option ErrKind)) : Option (List ErrKind) :=
  errorsJoin (reports.filterMap id)

/-- `sync.Once`-guarded close of one stage's cancellation channel
(src/ultimate/solution.go line 89): token states are modelled as a list of
closed-flags; closing an already-closed (or out-of-range) token is a
no-op. -/
def closeToken (closed : List Bool) (i : Nat) : List Bool :=
  if closed.getD i true then closed else closed.set i true

/-- The cascading shutdown loop (src/ultimate/solution.go lines 87-90):
`for i := se.Index; i >= 0; i--` closing token `i` under its
`sync.Once`. -/
def cascade (closed : List Bool) : Nat → List Bool
  | 0 => closeToken closed 0
  | i + 1 => cascade (closeToken closed (i + 1)) i

/-- The coordinator's drain loop (src/ultimate/solution.go lines 84-93):
one cascade per received `StageError` index. -/
def coordinate (closed : List Bool) : List Nat → List Bool
  | [] => closed
  | i :: rest => coordinate (cascade closed i) rest

/-- A producer whose every `Next` call succeeds, given as the list of
(items, cookie) pairs it returns before end of stream. -/
def allOk {α : Type} (p : List (List α × Int)) : List (NextRes α) :=
  p.map fun q => NextRes.ok q.1 q.2

/-- Concatenation of all fetched items, in fetch order. -/
def itemsOf {α : Type} (p : List (List α × Int)) : List α :=
  (p.map Prod.fst).flatten

/-- The fetch-call cookies, in fetch order. -/
def cookiesOf {α : Type} (p : List (List α × Int)) : List Int :=
  p.map Prod.snd

theorem allOk_cons {α : Type} (q : List α × Int) (p : List (List α × Int)) :
    allOk (q :: p) = NextRes.ok q.1 q.2 :: allOk p := rfl

theorem itemsOf_cons {α : Type} (q : List α × Int) (p : List (List α × Int)) :
    itemsOf (q :: p) = q.1 ++ itemsOf p := by
  simp [itemsOf]

theorem cookiesOf_cons {α : Type} (q : List α × Int) (p : List (List α × Int)) :
    cookiesOf (q :: p) = q.2 :: cookiesOf p := rfl

/-- A producer with no failing call never makes the fetch stage report
`ErrNextFailed`. -/
theorem runNext_allOk_snd {α : Type} (m : Nat) (p : List (List α × Int)) :
    ∀ st : Batch α, (runNext m st (allOk p)).2 = false := by
  induction p with
  | nil => intro st; simp [allOk, runNext]
  | cons q p ih =>
      intro st
      rw [allOk_cons, runNext_ok_cons]
      split <;> simp [ih]

/-- Every fetched item ends up in a sealed batch: the concatenation of the
emitted batches' buffers equals the carried buffer followed by all fetched
items, in fetch order. -/
theorem runNext_items {α : Type} (m : Nat) (p : List (List α × Int)) :
    ∀ st : Batch α,
      ((runNext m st (allOk p)).1.map Batch.buf).flatten = st.buf ++ itemsOf p := by
  induction p with
  | nil =>
      intro st
      simp only [allOk, List.map_nil, runNext, itemsOf, List.flatten_nil,
        List.append_nil]
      split
      · simp
      · have : st.buf = [] := by
          have h0 : st.buf.length = 0 := by omega
          exact List.eq_nil_of_length_eq_zero h0
        simp [this]
  | cons q p ih =>
      intro st
      rw [allOk_cons, runNext_ok_cons, itemsOf_cons]
      split
      · simp [ih ⟨q.1, [q.2]⟩]
      · simpa using ih ⟨st.buf ++ q.1, st.cookies ++ [q.2]⟩

/-- The cookie sequences of the sealed batches, concatenated, form an
initial segment of the carried cookies followed by the fetch-call cookies
in fetch order (only a trailing segment — cookies whose buffer never held
an item — can be left undelivered). -/
theorem runNext_cookies_decomp {α : Type} (m : Nat) (p : List (List α × Int)) :
    ∀ st : Batch α, ∃ t,
      ((runNext m st (allOk p)).1.map Batch.cookies).flatten ++ t =
        st.cookies ++ cookiesOf p := by
  induction p with
  | nil =>
      intro st
      simp only [allOk, List.map_nil, runNext, cookiesOf, List.append_nil]
      split
      · exact ⟨[], by simp⟩
      · exact ⟨st.cookies, by simp⟩
  | cons q p ih =>
      intro st
      rw [allOk_cons, runNext_ok_cons, cookiesOf_cons]
      split
      · obtain ⟨t, ht⟩ := ih ⟨q.1, [q.2]⟩
        refine ⟨t, ?_⟩
        simp only [List.map_cons, List.flatten_cons, List.append_assoc]
        rw [ht]
        simp
      · obtain ⟨t, ht⟩ := ih ⟨st.buf ++ q.1, st.cookies ++ [q.2]⟩
        refine ⟨t, ?_⟩
        rw [ht]
        simp

/-- When every fetch call carries at most `maxItems` items, every cookie is
delivered: the sealed batches' cookie sequences concatenate exactly to the
fetch-call cookies in fetch order, provided at least one item is fetched. -/
theorem runNext_cookies_eq {α : Type} (m : Nat) (p : List (List α × Int))
    (hm : ∀ q ∈ p, q.1.length ≤ m) :
    ∀ st : Batch α, st.buf.length ≤ m → st.buf ++ itemsOf p ≠ [] →
      ((runNext m st (allOk p)).1.map Batch.cookies).flatten =
        st.cookies ++ cookiesOf p := by
  induction p with
  | nil =>
      intro st hb hne
      simp only [allOk, List.map_nil, runNext, cookiesOf, List.append_nil]
      have hbuf : st.buf ≠ [] := by simpa [itemsOf] using hne
      have : st.buf.length > 0 := List.length_pos.mpr hbuf
      simp [this]
  | cons q p ih =>
      intro st hb hne
      have hq : q.1.length ≤ m := hm q (by simp)
      have hm' : ∀ r ∈ p, r.1.length ≤ m := fun r hr => hm r (by simp [hr])
      rw [allOk_cons, runNext_ok_cons, cookiesOf_cons]
      split
      · rename_i hov
        have hqne : q.1 ≠ [] := by
          intro h
          rw [h] at hov
          simp at hov
          omega
        have := (ih hm') ⟨q.1, [q.2]⟩ hq (by simp [hqne])
        simp only [List.map_cons, List.flatten_cons, this]
        simp
      · rename_i hov
        have hb' : (st.buf ++ q.1).length ≤ m := by
          simp only [List.length_append]
          omega
        have hne' : (st.buf ++ q.1) ++ itemsOf p ≠ [] := by
          simpa [itemsOf_cons] using hne
        have := (ih hm') ⟨st.buf ++ q.1, st.cookies ++ [q.2]⟩ hb' hne'
        rw [this]
        simp

/-- When every fetch call carries at most `maxItems` items, every sealed
batch holds at most `maxItems` items. -/
theorem runNext_batch_le {α : Type} (m : Nat) (p : List (List α × Int))
    (hm : ∀ q ∈ p, q.1.length ≤ m) :
    ∀ st : Batch α, st.buf.length ≤ m →
      ∀ b ∈ (runNext m st (allOk p)).1, b.buf.length ≤ m := by
  induction p with
  | nil =>
      intro st hb b hbmem
      simp only [allOk, List.map_nil, runNext] at hbmem
      split at hbmem
      · simp at hbmem; subst hbmem; exact hb
      · simp at hbmem
  | cons q p ih =>
      intro st hb b hbmem
      have hq : q.1.length ≤ m := hm q (by simp)
      have hm' : ∀ r ∈ p, r.1.length ≤ m := fun r hr => hm r (by simp [hr])
      rw [allOk_cons, runNext_ok_cons] at hbmem
      split at hbmem
      · simp only [List.mem_cons] at hbmem
        rcases hbmem with rfl | hbmem
        · exact hb
        · exact (ih hm') ⟨q.1, [q.2]⟩ hq b hbmem
      · rename_i hov
        refine (ih hm') ⟨st.buf ++ q.1, st.cookies ++ [q.2]⟩ ?_ b hbmem
        simp only [List.length_append]
        omega

/-- When the cumulative item count stays within `maxItems`, no overflow
flush ever fires: everything accumulates into the carried buffer, which is
sealed at end of stream iff it holds an item. -/
theorem runNext_no_overflow {α : Type} (m : Nat) (p : List (List α × Int)) :
    ∀ st : Batch α, st.buf.length + (p.map fun q => q.1.length).sum ≤ m →
      runNext m st (allOk p) =
        (if (st.buf ++ itemsOf p).isEmpty then []
          else [⟨st.buf ++ itemsOf p, st.cookies ++ cookiesOf p⟩], false) := by
  induction p with
  | nil =>
      intro st hsum
      obtain ⟨buf, cks⟩ := st
      cases buf with
      | nil => simp [allOk, runNext, itemsOf, cookiesOf]
      | cons a l => simp [allOk, runNext, itemsOf, cookiesOf]
  | cons q p ih =>
      intro st hsum
      simp only [List.map_cons, List.sum_cons] at hsum
      rw [allOk_cons, runNext_ok_cons]
      have hno : ¬ st.buf.length + q.1.length > m := by omega
      rw [if_neg hno]
      have := ih ⟨st.buf ++ q.1, st.cookies ++ [q.2]⟩
        (by simp only [List.length_append]; omega)
      rw [this, itemsOf_cons, cookiesOf_cons]
      simp only [List.append_assoc, Prod.mk.injEq, List.singleton_append,
        List.cons_append, List.nil_append]

/-- When every fetch call returns zero items the buffer stays empty, so no
batch is ever sealed and the collected cookies are dropped. -/
theorem runNext_all_empty {α : Type} (m : Nat) (p : List (List α × Int))
    (hz : ∀ q ∈ p, q.1 = []) :
    ∀ cks : List Int, runNext m (⟨[], cks⟩ : Batch α) (allOk p) = ([], false) := by
  induction p with
  | nil => intro cks; simp [allOk, runNext]
  | cons q p ih =>
      intro cks
      have hq : q.1 = [] := hz q (by simp)
      have hz' : ∀ r ∈ p, r.1 = [] := fun r hr => hz r (by simp [hr])
      rw [allOk_cons, runNext_ok_cons]
      have hno : ¬ ([] : List α).length + q.1.length > m := by simp [hq]
      rw [if_neg hno]
      have := (ih hz') (cks ++ [q.2])
      simpa [hq] using this

/-- The full event sequence of a process stage whose every `Process` call
succeeds: per batch, the call followed by that batch's cookies. -/
theorem runProcess_all_true {α : Type} (bs : List (Batch α)) :
    ∀ n, runProcess (fun _ => true) n bs =
      ((bs.map fun b =>
          ProcEv.call b.buf true :: b.cookies.map ProcEv.emit).flatten, false) := by
  induction bs with
  | nil => intro n; simp [runProcess]
  | cons b bs ih =>
      intro n
      simp [runProcess, ih (n + 1)]

theorem emitted_append {α : Type} (xs ys : List (ProcEv α)) :
    emitted (xs ++ ys) = emitted xs ++ emitted ys := by
  simp [emitted]

theorem procCalls_append {α : Type} (xs ys : List (ProcEv α)) :
    procCalls (xs ++ ys) = procCalls xs ++ procCalls ys := by
  simp [procCalls]

theorem emitted_cons_call {α : Type} (i : List α) (o : Bool)
    (evs : List (ProcEv α)) :
    emitted (ProcEv.call i o :: evs) = emitted evs := by
  simp [emitted]

theorem emitted_cons_emit {α : Type} (c : Int) (evs : List (ProcEv α)) :
    emitted (ProcEv.emit c :: evs) = c :: emitted evs := by
  simp [emitted]

theorem procCalls_cons_call {α : Type} (i : List α) (o : Bool)
    (evs : List (ProcEv α)) :
    procCalls (ProcEv.call i o :: evs) = (i, o) :: procCalls evs := by
  simp [procCalls]

theorem procCalls_cons_emit {α : Type} (c : Int) (evs : List (ProcEv α)) :
    procCalls (ProcEv.emit c :: evs) = procCalls evs := by
  simp [procCalls]

theorem emitted_map_emit {α : Type} (cs : List Int) :
    emitted (cs.map (ProcEv.emit (α := α))) = cs := by
  induction cs with
  | nil => rfl
  | cons c cs ih => rw [List.map_cons, emitted_cons_emit, ih]

theorem procCalls_map_emit {α : Type} (cs : List Int) :
    procCalls (cs.map (ProcEv.emit (α := α))) = [] := by
  induction cs with
  | nil => rfl
  | cons c cs ih => rw [List.map_cons, procCalls_cons_emit, ih]

theorem emitted_batch_trace {α : Type} (b : Batch α) (o : Bool) :
    emitted (ProcEv.call b.buf o :: b.cookies.map ProcEv.emit) = b.cookies := by
  rw [emitted_cons_call, emitted_map_emit]

theorem procCalls_batch_trace {α : Type} (b : Batch α) (o : Bool) :
    procCalls (ProcEv.call b.buf o :: b.cookies.map ProcEv.emit) = [(b.buf, o)] := by
  rw [procCalls_cons_call, procCalls_map_emit]

/-- On the all-success trace the emitted cookies are exactly the batches'
cookie sequences, concatenated in batch order. -/
theorem emitted_all_true {α : Type} (bs : List (Batch α)) :
    emitted ((bs.map fun b =>
        ProcEv.call b.buf true :: b.cookies.map ProcEv.emit).flatten) =
      (bs.map Batch.cookies).flatten := by
  induction bs with
  | nil => simp [emitted]
  | cons b bs ih =>
      simp only [List.map_cons, List.flatten_cons, emitted_append, ih]
      rw [emitted_batch_trace]

/-- On the all-success trace the `Process` calls are exactly the batches'
buffers, each succeeding, in batch order. -/
theorem procCalls_all_true {α : Type} (bs : List (Batch α)) :
    procCalls ((bs.map fun b =>
        ProcEv.call b.buf true :: b.cookies.map ProcEv.emit).flatten) =
      bs.map fun b => (b.buf, true) := by
  induction bs with
  | nil => simp [procCalls]
  | cons b bs ih =>
      simp only [List.map_cons, List.flatten_cons, procCalls_append, ih]
      rw [procCalls_batch_trace]
      rfl

/-- The process stage with its first failing `Process` call on the k-th
received batch: the earlier batches are processed and their cookies
emitted, the failing call emits nothing, no later batch is touched, and
the stage reports its error. -/
theorem runProcess_fail_at {α : Type} (bs : List (Batch α)) :
    ∀ (procRes : Nat → Bool) (n k : Nat) (bk : Batch α), bs[k]? = some bk →
      (∀ j, j < k → procRes (n + j) = true) → procRes (n + k) = false →
      runProcess procRes n bs =
        (((bs.take k).map fun b =>
            ProcEv.call b.buf true :: b.cookies.map ProcEv.emit).flatten
          ++ [ProcEv.call bk.buf false], true) := by
  induction bs with
  | nil => intro procRes n k bk hget; simp at hget
  | cons b bs ih =>
      intro procRes n k bk hget h1 h2
      cases k with
      | zero =>
          simp only [List.getElem?_cons_zero, Option.some.injEq] at hget
          subst hget
          simp only [Nat.add_zero] at h2
          simp [runProcess, h2]
      | succ k =>
          have hb : procRes n = true := by
            have := h1 0 (Nat.succ_pos k)
            simpa using this
          simp only [List.getElem?_cons_succ] at hget
          have h1' : ∀ j, j < k → procRes (n + 1 + j) = true := by
            intro j hj
            have harg : n + 1 + j = n + (j + 1) := by omega
            rw [harg]
            exact h1 (j + 1) (by omega)
          have h2' : procRes (n + 1 + k) = false := by
            have harg : n + 1 + k = n + (k + 1) := by omega
            rw [harg]
            exact h2
          simp only [runProcess, hb, if_true]
          rw [ih procRes (n + 1) k bk hget h1' h2']
          simp [List.append_assoc]

/-- The commit stage whose every `Commit` call succeeds acknowledges every
received cookie, in receipt order. -/
theorem runCommit_all_true (cs : List Int) :
    ∀ n, runCommit (fun _ => true) n cs = (cs.map fun c => (c, true), false) := by
  induction cs with
  | nil => intro n; simp [runCommit]
  | cons c cs ih =>
      intro n
      simp [runCommit, ih (n + 1)]

/-- The cookies the commit stage touches are always an initial segment of
the cookies it receives, in receipt order. -/
theorem runCommit_calls_decomp (cs : List Int) :
    ∀ (commitRes : Nat → Bool) (n : Nat),
      ∃ t, ((runCommit commitRes n cs).1.map Prod.fst) ++ t = cs := by
  induction cs with
  | nil => intro commitRes n; exact ⟨[], rfl⟩
  | cons c cs ih =>
      intro commitRes n
      cases h : commitRes n with
      | true =>
          obtain ⟨t, ht⟩ := ih commitRes (n + 1)
          refine ⟨t, ?_⟩
          simp [runCommit, h, ht]
      | false =>
          refine ⟨cs, ?_⟩
          simp [runCommit, h]

/-- The commit stage with its first failing `Commit` call on the k-th
received cookie: the earlier cookies are acknowledged, the failing call is
the last one made, and the stage reports its error. -/
theorem runCommit_fail_at (cs : List Int) :
    ∀ (commitRes : Nat → Bool) (n k : Nat) (ck : Int), cs[k]? = some ck →
      (∀ j, j < k → commitRes (n + j) = true) → commitRes (n + k) = false →
      runCommit commitRes n cs =
        ((cs.take k).map (fun c => (c, true)) ++ [(ck, false)], true) := by
  induction cs with
  | nil => intro commitRes n k ck hget; simp at hget
  | cons c cs ih =>
      intro commitRes n k ck hget h1 h2
      cases k with
      | zero =>
          simp only [List.getElem?_cons_zero, Option.some.injEq] at hget
          subst hget
          simp only [Nat.add_zero] at h2
          simp [runCommit, h2]
      | succ k =>
          have hb : commitRes n = true := by
            have := h1 0 (Nat.succ_pos k)
            simpa using this
          simp only [List.getElem?_cons_succ] at hget
          have h1' : ∀ j, j < k → commitRes (n + 1 + j) = true := by
            intro j hj
            have harg : n + 1 + j = n + (j + 1) := by omega
            rw [harg]
            exact h1 (j + 1) (by omega)
          have h2' : commitRes (n + 1 + k) = false := by
            have harg : n + 1 + k = n + (k + 1) := by omega
            rw [harg]
            exact h2
          simp only [runCommit, hb, if_true]
          rw [ih commitRes (n + 1) k ck hget h1' h2']
          simp

theorem getD_set_self : ∀ (l : List Bool) (i : Nat) (v d : Bool),
    i < l.length → (l.set i v).getD i d = v := by
  intro l
  induction l with
  | nil => intro i v d h; simp at h
  | cons a l ih =>
      intro i v d h
      cases i with
      | zero => rfl
      | succ i =>
          simp only [List.set_cons_succ, List.getD_cons_succ]
          exact ih i v d (by simpa using h)

theorem getD_set_ne : ∀ (l : List Bool) (i j : Nat) (v d : Bool),
    j ≠ i → (l.set i v).getD j d = l.getD j d := by
  intro l
  induction l with
  | nil => intro i j v d _; simp [List.getD]
  | cons a l ih =>
      intro i j v d hne
      cases i with
      | zero =>
          cases j with
          | zero => exact absurd rfl hne
          | succ j => simp [List.getD_cons_succ]
      | succ i =>
          cases j with
          | zero => simp [List.getD_cons_zero]
          | succ j =>
              simp only [List.set_cons_succ, List.getD_cons_succ]
              exact ih i j v d (by omega)

theorem getD_default_of_le (l : List Bool) (i : Nat) (d : Bool)
    (h : l.length ≤ i) : l.getD i d = d := by
  simp [List.getD, List.getElem?_eq_none h]

theorem closeToken_length (c : List Bool) (i : Nat) :
    (closeToken c i).length = c.length := by
  unfold closeToken
  split <;> simp

/-- `sync.Once`: closing a token whose guard has already fired is a
no-op. -/
theorem closeToken_of_getD_true (c : List Bool) (i : Nat)
    (h : c.getD i true = true) : closeToken c i = c := by
  unfold closeToken
  rw [h]
  simp

/-- After a close the guard of that token has fired. -/
theorem closeToken_getD_true (c : List Bool) (i : Nat) :
    (closeToken c i).getD i true = true := by
  unfold closeToken
  cases h : c.getD i true with
  | true => simpa using h
  | false =>
      have hi : i < c.length := by
        by_contra hge
        rw [getD_default_of_le c i true (by omega)] at h
        exact Bool.false_ne_true h.symm
      simp only [if_false, Bool.false_eq_true]
      exact getD_set_self c i true true hi

/-- Closing a token twice equals closing it once: the second close is a
no-op. -/
theorem closeToken_idem (c : List Bool) (i : Nat) :
    closeToken (closeToken c i) i = closeToken c i :=
  closeToken_of_getD_true _ i (closeToken_getD_true c i)

theorem closeToken_getD_closed (c : List Bool) (i : Nat) (hi : i < c.length) :
    (closeToken c i).getD i false = true := by
  unfold closeToken
  cases h : c.getD i true with
  | true =>
      have := List.getD_eq_getElem c true hi
      have h2 := List.getD_eq_getElem c false hi
      rw [this] at h
      simp only [Bool.false_eq_true, if_true]
      rw [h2, h]
  | false =>
      simp only [Bool.false_eq_true, if_false]
      exact getD_set_self c i true false hi

theorem closeToken_getD_ne (c : List Bool) (i j : Nat) (d : Bool)
    (hne : j ≠ i) : (closeToken c i).getD j d = c.getD j d := by
  unfold closeToken
  split
  · rfl
  · exact getD_set_ne c i j true d hne

theorem cascade_length (i : Nat) : ∀ c : List Bool,
    (cascade c i).length = c.length := by
  induction i with
  | zero => intro c; exact closeToken_length c 0
  | succ i ih =>
      intro c
      show (cascade (closeToken c (i + 1)) i).length = c.length
      rw [ih, closeToken_length]

/-- The cascade for a `StageError` of index `i` does not touch any token
of index greater than `i`. -/
theorem cascade_getD_gt (i : Nat) : ∀ (c : List Bool) (j : Nat) (d : Bool),
    i < j → (cascade c i).getD j d = c.getD j d := by
  induction i with
  | zero =>
      intro c j d hj
      exact closeToken_getD_ne c 0 j d (by omega)
  | succ i ih =>
      intro c j d hj
      show (cascade (closeToken c (i + 1)) i).getD j d = c.getD j d
      rw [ih _ j d (by omega)]
      exact closeToken_getD_ne c (i + 1) j d (by omega)

/-- The cascade for a `StageError` of index `i` closes every token of
index at most `i`. -/
theorem cascade_getD_le (i : Nat) : ∀ (c : List Bool) (j : Nat),
    j ≤ i → i < c.length → (cascade c i).getD j false = true := by
  induction i with
  | zero =>
      intro c j hj hi
      have : j = 0 := by omega
      subst this
      exact closeToken_getD_closed c 0 hi
  | succ i ih =>
      intro c j hj hi
      show (cascade (closeToken c (i + 1)) i).getD j false = true
      rcases Nat.lt_or_ge j (i + 1) with hlt | hge
      · exact ih (closeToken c (i + 1)) j (by omega)
          (by rw [closeToken_length]; omega)
      · have hj' : j = i + 1 := by omega
        subst hj'
        rw [cascade_getD_gt i _ (i + 1) false (by omega)]
        exact closeToken_getD_closed c (i + 1) hi

/-- Running the same cascade twice equals running it once. -/
theorem cascade_idem (i : Nat) : ∀ c : List Bool,
    cascade (cascade c i) i = cascade c i := by
  induction i with
  | zero => intro c; exact closeToken_idem c 0
  | succ i ih =>
      intro c
      show cascade (closeToken (cascade (closeToken c (i + 1)) i) (i + 1)) i =
        cascade (closeToken c (i + 1)) i
      have hfired : (cascade (closeToken c (i + 1)) i).getD (i + 1) true = true := by
        rw [cascade_getD_gt i _ (i + 1) true (by omega)]
        exact closeToken_getD_true c (i + 1)
      rw [closeToken_of_getD_true _ (i + 1) hfired]
      exact ih (closeToken c (i + 1))

theorem errorsJoin_eq_none (es : List ErrKind) :
    errorsJoin es = none ↔ es = [] := by
  cases es <;> simp [errorsJoin]

theorem errorsIs_join (es : List ErrKind) (k : ErrKind) :
    errorsIs (errorsJoin es) k ↔ k ∈ es := by
  cases es <;> simp [errorsJoin, errorsIs]

theorem Pipe_batches {α : Type} (p : List (NextRes α))
    (procRes commitRes : Nat → Bool) (m : Nat) :
    (Pipe p procRes commitRes m).batches = (runNext m ⟨[], []⟩ p).1 := rfl

theorem Pipe_nextErr {α : Type} (p : List (NextRes α))
    (procRes commitRes : Nat → Bool) (m : Nat) :
    (Pipe p procRes commitRes m).nextErr = (runNext m ⟨[], []⟩ p).2 := rfl

theorem Pipe_procEvents {α : Type} (p : List (NextRes α))
    (procRes commitRes : Nat → Bool) (m : Nat) :
    (Pipe p procRes commitRes m).procEvents =
      (runProcess procRes 0 (runNext m ⟨[], []⟩ p).1).1 := rfl

theorem Pipe_procErr {α : Type} (p : List (NextRes α))
    (procRes commitRes : Nat → Bool) (m : Nat) :
    (Pipe p procRes commitRes m).procErr =
      (runProcess procRes 0 (runNext m ⟨[], []⟩ p).1).2 := rfl

theorem Pipe_commitCalls {α : Type} (p : List (NextRes α))
    (procRes commitRes : Nat → Bool) (m : Nat) :
    (Pipe p procRes commitRes m).commitCalls =
      (runCommit commitRes 0
        (emitted (runProcess procRes 0 (runNext m ⟨[], []⟩ p).1).1)).1 := rfl

theorem Pipe_commitErr {α : Type} (p : List (NextRes α))
    (procRes commitRes : Nat → Bool) (m : Nat) :
    (Pipe p procRes commitRes m).commitErr =
      (runCommit commitRes 0
        (emitted (runProcess procRes 0 (runNext m ⟨[], []⟩ p).1).1)).2 := rfl

/-- A run whose process stage failed returns an aggregate matched by
`ErrProcessFailed`. -/
theorem errorsIs_of_procErr {α : Type} (r : PipeRes α) (h : r.procErr = true) :
    errorsIs (PipeRun r) ErrKind.processFailed := by
  rw [PipeRun, errorsIs_join, stageErrors, h]
  simp

/-- A run whose commit stage failed returns an aggregate matched by
`ErrCommitFailed`. -/
theorem errorsIs_of_commitErr {α : Type} (r : PipeRes α) (h : r.commitErr = true) :
    errorsIs (PipeRun r) ErrKind.commitFailed := by
  rw [PipeRun, errorsIs_join, stageErrors, h]
  simp

/-- C2: whenever the coordinator receives a `StageError` with stage index
`i`, the cascade it runs closes the cancellation token of every stage with
index at most `i`, leaves every token of index greater than `i` exactly as
it was (the cascade never closes a downstream token), and is idempotent;
each individual token close is guarded (`sync.Once`), so only the first
close of a token has effect and any later close is a no-op. -/
theorem claim_C2_cascade_closes_upstream (closed : List Bool) (i : Nat)
    (hi : i < closed.length) :
    (∀ j, j ≤ i → (cascade closed i).getD j false = true) ∧
    (∀ j, i < j → (cascade closed i).getD j false = closed.getD j false) ∧
    cascade (cascade closed i) i = cascade closed i ∧
    (∀ (c : List Bool) (j : Nat), closeToken (closeToken c j) j = closeToken c j) :=
  ⟨fun j hj => cascade_getD_le i closed j hj hi,
   fun j hj => cascade_getD_gt i closed j false hj,
   cascade_idem i closed,
   fun c j => closeToken_idem c j⟩

theorem claim_C2_witness :
    1 < ([false, false, false] : List Bool).length ∧
    (cascade [false, false, false] 1).getD 0 false = true ∧
    (cascade [false, false, false] 1).getD 1 false = true ∧
    (cascade [false, false, false] 1).getD 2 false =
      ([false, false, false] : List Bool).getD 2 false ∧
    cascade (cascade [false, false, false] 1) 1 = cascade [false, false, false] 1 :=
  ⟨by decide,
   (claim_C2_cascade_closes_upstream [false, false, false] 1 (by decide)).1 0
     (by decide),
   (claim_C2_cascade_closes_upstream [false, false, false] 1 (by decide)).1 1
     (by decide),
   (claim_C2_cascade_closes_upstream [false, false, false] 1 (by decide)).2.1 2
     (by decide),
   (claim_C2_cascade_closes_upstream [false, false, false] 1 (by decide)).2.2.1⟩

/-- C8: the run returns `nil` iff no stage reported a failure, and when it
returns an aggregate, each underlying failure kind is matched by the
aggregate iff some stage reported it — each kind is independently testable
even when several stages failed. -/
theorem claim_C8_run_error_aggregation :
    (∀ reports : List (Option ErrKind),
      (PipelineRun reports = none ↔ ∀ e ∈ reports, e = none) ∧
      (∀ k, errorsIs (PipelineRun reports) k ↔ some k ∈ reports)) ∧
    (∀ r : PipeRes Nat,
      (PipeRun r = none ↔
        r.nextErr = false ∧ r.procErr = false ∧ r.commitErr = false)) := by
  constructor
  · intro reports
    constructor
    · rw [PipelineRun, errorsJoin_eq_none, List.filterMap_eq_nil_iff]
      simp
    · intro k
      rw [PipelineRun, errorsIs_join, List.mem_filterMap]
      simp
  · intro r
    obtain ⟨bs, ne, evs, pe, cc, ce⟩ := r
    cases ne <;> cases pe <;> cases ce <;>
      simp [PipeRun, stageErrors, errorsJoin]

/-- C4: when the buffer size plus the new item count equals `maxItems`
exactly, no flush is triggered — the new items and the new cookie are
appended to the same buffer — and (concretely, the exact-fit run of the
test suite) that buffer is later delivered as a single batch. -/
theorem claim_C4_exact_fit {α : Type} (m : Nat) (st : Batch α)
    (items : List α) (ck : Int)
    (hfit : st.buf.length + items.length = m) :
    nextStep m st items ck = (none, ⟨st.buf ++ items, st.cookies ++ [ck]⟩) ∧
    Pipe (allOk [([1, 2, 3], 1)]) (fun _ => true) (fun _ => true) 3 =
      ⟨[⟨[1, 2, 3], [1]⟩], false,
        [ProcEv.call [1, 2, 3] true, ProcEv.emit 1], false, [(1, true)], false⟩ := by
  constructor
  · unfold nextStep
    rw [if_neg (by omega)]
  · rfl

theorem claim_C4_witness :
    ([1, 2] : List Nat).length + ([3] : List Nat).length = 3 ∧
    nextStep 3 (⟨[1, 2], [9]⟩ : Batch Nat) [3] 7 =
      (none, ⟨[1, 2, 3], [9, 7]⟩) :=
  ⟨by decide,
   ((claim_C4_exact_fit 3 (⟨[1, 2], [9]⟩ : Batch Nat) [3] 7 (by decide)).1)⟩

/-- C9: every successful fetch call appends exactly its one cookie to the
current batch's cookie sequence — to the carried sequence when no flush
fires, to the fresh batch otherwise — independently of the call's item
count; in particular a zero-item call (the buffer being within bounds, as
it always is once every call is) leaves the buffer unchanged and still
contributes its cookie. -/
theorem claim_C9_cookie_per_fetch {α : Type} (m : Nat) (st : Batch α)
    (items : List α) (ck : Int) (hb : st.buf.length ≤ m) :
    (nextStep m st items ck).2.cookies =
      (if st.buf.length + items.length > m then [] else st.cookies) ++ [ck] ∧
    (nextStep m st [] ck).2 = ⟨st.buf, st.cookies ++ [ck]⟩ := by
  constructor
  · unfold nextStep
    split
    · simp
    · simp
  · unfold nextStep
    rw [if_neg (by simpa using hb)]
    simp

theorem claim_C9_witness :
    (⟨[1, 2], [4]⟩ : Batch Nat).buf.length ≤ 5 ∧
    (nextStep 5 (⟨[1, 2], [4]⟩ : Batch Nat) [] 8).2 = ⟨[1, 2], [4, 8]⟩ :=
  ⟨by decide,
   (claim_C9_cookie_per_fetch 5 (⟨[1, 2], [4]⟩ : Batch Nat) [] 8 (by decide)).2⟩

/-- C5 as stated is false: with capacity limit 1, a single fetch call
returning two items makes the fetch stage seal and hand downstream first
an empty batch and then a batch of two items — the latter exceeds the
capacity limit at the moment it is sealed, and the overflowing call was
not deferred out of it. -/
theorem claim_C5_counterexample :
    (runNext 1 (⟨[], []⟩ : Batch Nat) (allOk [([1, 2], 1)])).1 =
      [⟨[], []⟩, ⟨[1, 2], [1]⟩] ∧
    ¬ (∀ b ∈ (runNext 1 (⟨[], []⟩ : Batch Nat) (allOk [([1, 2], 1)])).1,
        b.buf.length ≤ 1) := by
  constructor
  · rfl
  · intro h
    have := h ⟨[1, 2], [1]⟩ (by simp [allOk, runNext, nextStep])
    simp at this

/-- C5 amended: provided every single fetch call returns at most
`maxItems` items, every batch holds at most `maxItems` items at the
moment it is sealed and handed downstream (the call that would overflow a
batch is deferred to the next batch, never merged in). -/
theorem claim_C5_amended {α : Type} (p : List (List α × Int)) (m : Nat)
    (hm : ∀ q ∈ p, q.1.length ≤ m) :
    ∀ b ∈ (runNext m (⟨[], []⟩ : Batch α) (allOk p)).1, b.buf.length ≤ m :=
  runNext_batch_le m p hm ⟨[], []⟩ (by simp)

theorem claim_C5_witness :
    (∀ q ∈ [([1, 2, 3], 1), ([4, 5], 2), ([6, 7, 8], 3)], (q : List Nat × Int).1.length ≤ 5) ∧
    (∀ b ∈ (runNext 5 (⟨[], []⟩ : Batch Nat)
        (allOk [([1, 2, 3], 1), ([4, 5], 2), ([6, 7, 8], 3)])).1,
      b.buf.length ≤ 5) :=
  ⟨by decide,
   claim_C5_amended [([1, 2, 3], 1), ([4, 5], 2), ([6, 7, 8], 3)] 5 (by decide)⟩

/-- C10: when every successful fetch call before end of stream returns
zero items, the buffer is empty at end of stream, so no batch is sealed,
`Process` is never called, no cookie is ever acknowledged (the collected
cookies are silently dropped), and the run returns `nil`. -/
theorem claim_C10_all_empty_fetches {α : Type} (p : List (List α × Int))
    (m : Nat) (procRes commitRes : Nat → Bool) (hz : ∀ q ∈ p, q.1 = []) :
    Pipe (allOk p) procRes commitRes m = ⟨[], false, [], false, [], false⟩ ∧
    PipeRun (Pipe (allOk p) procRes commitRes m) = none := by
  have h := runNext_all_empty m p hz []
  have hpipe : Pipe (allOk p) procRes commitRes m = ⟨[], false, [], false, [], false⟩ := by
    unfold Pipe
    rw [h]
    rfl
  exact ⟨hpipe, by rw [hpipe]; rfl⟩

theorem claim_C10_witness :
    (∀ q ∈ [(([] : List Nat), 1), ([], 2)], q.1 = []) ∧
    Pipe (allOk [(([] : List Nat), 1), ([], 2)]) (fun _ => true) (fun _ => true) 4 =
      ⟨[], false, [], false, [], false⟩ :=
  ⟨by decide,
   (claim_C10_all_empty_fetches [(([] : List Nat), 1), ([], 2)] 4
     (fun _ => true) (fun _ => true) (by decide)).1⟩

/-- C1 as stated is false: a producer whose single fetch call returns
zero items with a valid cookie (cumulative item count 0, within any
capacity limit) leads to zero `Process` calls and zero `Commit` calls —
not one `Process` call with the (empty) concatenation and one
acknowledgement of the cookie. -/
theorem claim_C1_counterexample :
    (Pipe (allOk [(([] : List Nat), 7)]) (fun _ => true) (fun _ => true) 5).procEvents
      = [] ∧
    (Pipe (allOk [(([] : List Nat), 7)]) (fun _ => true) (fun _ => true) 5).commitCalls
      = [] := by
  constructor <;> rfl

/-- C1 amended: for every producer whose fetch calls have a cumulative
item count within the capacity limit and fetch at least one item in
total, the whole input forms one batch: `Process` is called exactly once,
with the concatenation of all items in fetch order, and — only if that
call succeeds — each fetch-call cookie is then acknowledged exactly once,
in fetch order (on a failing `Process` call nothing is ever
acknowledged); with no stage failing the run returns `nil`. -/
theorem claim_C1_single_batch {α : Type} (p : List (List α × Int)) (m : Nat)
    (procRes : Nat → Bool)
    (hcum : (p.map fun q => q.1.length).sum ≤ m) (hne : itemsOf p ≠ []) :
    (Pipe (allOk p) procRes (fun _ => true) m).batches =
      [⟨itemsOf p, cookiesOf p⟩] ∧
    (Pipe (allOk p) procRes (fun _ => true) m).procEvents =
      ProcEv.call (itemsOf p) (procRes 0) ::
        (if procRes 0 then (cookiesOf p).map ProcEv.emit else []) ∧
    (Pipe (allOk p) procRes (fun _ => true) m).commitCalls =
      (if procRes 0 then (cookiesOf p).map fun c => (c, true) else []) ∧
    (procRes 0 = true →
      PipeRun (Pipe (allOk p) procRes (fun _ => true) m) = none) := by
  have hie : (([] : List α) ++ itemsOf p).isEmpty = false := by
    cases hI : itemsOf p with
    | nil => exact absurd hI hne
    | cons a l => simp
  have hnr : runNext m (⟨[], []⟩ : Batch α) (allOk p) =
      ([⟨itemsOf p, cookiesOf p⟩], false) := by
    rw [runNext_no_overflow m p ⟨[], []⟩ (by simpa using hcum), hie]
    simp
  have hbatches := Pipe_batches (allOk p) procRes (fun _ => true) m
  rw [hnr] at hbatches
  have hevs := Pipe_procEvents (allOk p) procRes (fun _ => true) m
  rw [hnr] at hevs
  have hcc := Pipe_commitCalls (allOk p) procRes (fun _ => true) m
  rw [hnr] at hcc
  cases hpr : procRes 0 with
  | false =>
      have hrp : runProcess procRes 0 [(⟨itemsOf p, cookiesOf p⟩ : Batch α)] =
          ([ProcEv.call (itemsOf p) false], true) := by
        simp [runProcess, hpr]
      rw [hrp] at hevs hcc
      refine ⟨hbatches, ?_, ?_, ?_⟩
      · rw [hevs]
        simp
      · rw [hcc]
        simp [emitted, runCommit]
      · intro h
        exact absurd h (by simp)
  | true =>
      have hrp : runProcess procRes 0 [(⟨itemsOf p, cookiesOf p⟩ : Batch α)] =
          (ProcEv.call (itemsOf p) true :: (cookiesOf p).map ProcEv.emit, false) := by
        simp [runProcess, hpr]
      rw [hrp] at hevs hcc
      refine ⟨hbatches, ?_, ?_, ?_⟩
      · rw [hevs]
        simp
      · rw [hcc, emitted_cons_call, emitted_map_emit, runCommit_all_true]
        simp
      · intro _
        have hperr := Pipe_procErr (allOk p) procRes (fun _ => true) m
        rw [hnr, hrp] at hperr
        have hcerr := Pipe_commitErr (allOk p) procRes (fun _ => true) m
        rw [hnr, hrp, emitted_cons_call, emitted_map_emit,
          runCommit_all_true] at hcerr
        have hnerr := Pipe_nextErr (allOk p) procRes (fun _ => true) m
        rw [hnr] at hnerr
        rw [PipeRun, errorsJoin_eq_none, stageErrors, hnerr, hperr, hcerr]
        rfl

theorem claim_C1_witness :
    (([([1, 2], 5), ([3], 6)] : List (List Nat × Int)).map
        fun q => q.1.length).sum ≤ 5 ∧
    itemsOf ([([1, 2], 5), ([3], 6)] : List (List Nat × Int)) ≠ [] ∧
    (Pipe (allOk ([([1, 2], 5), ([3], 6)] : List (List Nat × Int)))
        (fun _ => true) (fun _ => true) 5).procEvents =
      ProcEv.call [1, 2, 3] true :: [ProcEv.emit 5, ProcEv.emit 6] ∧
    (Pipe (allOk ([([1, 2], 5), ([3], 6)] : List (List Nat × Int)))
        (fun _ => true) (fun _ => true) 5).commitCalls =
      [(5, true), (6, true)] := by
  refine ⟨by decide, by decide, ?_, ?_⟩
  · have := (claim_C1_single_batch ([([1, 2], 5), ([3], 6)] : List (List Nat × Int))
      5 (fun _ => true) (by decide) (by decide)).2.1
    simpa [itemsOf, cookiesOf] using this
  · have := (claim_C1_single_batch ([([1, 2], 5), ([3], 6)] : List (List Nat × Int))
      5 (fun _ => true) (by decide) (by decide)).2.2.1
    simpa [cookiesOf] using this

theorem map_fst_pair_true (l : List Int) :
    (l.map fun c => (c, true)).map Prod.fst = l := by
  induction l with
  | nil => rfl
  | cons a l ih => simp [ih]

/-- C3: on a fetch result that would make the current buffer exceed the
capacity limit, the current buffer — exactly its items and cookies — is
sealed, and the new result starts the fresh buffer; each sealed batch is
delivered in order, triggering one `Process` call immediately followed by
the emission (hence, downstream, the acknowledgement) of exactly that
batch's cookies; the item concatenation across all sealed batches equals
the fetch order, and the acknowledgement sequence follows the fetch-call
cookie order (an initial segment of it in general — in full once every
fetch call is within the capacity limit and some item is fetched). -/
theorem claim_C3_overflow_split {α : Type} (p : List (List α × Int)) (m : Nat)
    (st : Batch α) (items : List α) (ck : Int)
    (hov : st.buf.length + items.length > m) :
    nextStep m st items ck = (some st, ⟨items, [ck]⟩) ∧
    (Pipe (allOk p) (fun _ => true) (fun _ => true) m).procEvents =
      (((runNext m (⟨[], []⟩ : Batch α) (allOk p)).1.map fun b =>
          ProcEv.call b.buf true :: b.cookies.map ProcEv.emit).flatten) ∧
    (Pipe (allOk p) (fun _ => true) (fun _ => true) m).commitCalls.map Prod.fst =
      (((runNext m (⟨[], []⟩ : Batch α) (allOk p)).1.map Batch.cookies).flatten) ∧
    ((runNext m (⟨[], []⟩ : Batch α) (allOk p)).1.map Batch.buf).flatten =
      itemsOf p ∧
    (∃ t, ((Pipe (allOk p) (fun _ => true) (fun _ => true) m).commitCalls.map
        Prod.fst) ++ t = cookiesOf p) ∧
    ((∀ q ∈ p, q.1.length ≤ m) → itemsOf p ≠ [] →
      (Pipe (allOk p) (fun _ => true) (fun _ => true) m).commitCalls.map
        Prod.fst = cookiesOf p) := by
  have hevs := Pipe_procEvents (allOk p) (fun _ => true) (fun _ => true) m
  rw [runProcess_all_true] at hevs
  have hcc := Pipe_commitCalls (allOk p) (fun _ => true) (fun _ => true) m
  rw [runProcess_all_true] at hcc
  have hccfst : (Pipe (allOk p) (fun _ => true) (fun _ => true) m).commitCalls.map
      Prod.fst =
      (((runNext m (⟨[], []⟩ : Batch α) (allOk p)).1.map Batch.cookies).flatten) := by
    rw [hcc, emitted_all_true, runCommit_all_true]
    exact map_fst_pair_true _
  refine ⟨?_, hevs, hccfst, runNext_items m p ⟨[], []⟩, ?_, ?_⟩
  · unfold nextStep
    rw [if_pos hov]
  · obtain ⟨t, ht⟩ := runNext_cookies_decomp m p (⟨[], []⟩ : Batch α)
    refine ⟨t, ?_⟩
    rw [hccfst, ht]
    rfl
  · intro hm hne
    rw [hccfst, runNext_cookies_eq m p hm ⟨[], []⟩ (by simp) (by simpa using hne)]
    rfl

theorem claim_C3_witness :
    ([1, 2, 3, 4, 5] : List Nat).length + ([6, 7, 8] : List Nat).length > 5 ∧
    ((∀ q ∈ ([([1, 2, 3], 1), ([4, 5], 2), ([6, 7, 8], 3)] :
        List (List Nat × Int)), q.1.length ≤ 5) ∧
      itemsOf ([([1, 2, 3], 1), ([4, 5], 2), ([6, 7, 8], 3)] :
        List (List Nat × Int)) ≠ []) ∧
    nextStep 5 (⟨[1, 2, 3, 4, 5], [1, 2]⟩ : Batch Nat) [6, 7, 8] 3 =
      (some ⟨[1, 2, 3, 4, 5], [1, 2]⟩, ⟨[6, 7, 8], [3]⟩) ∧
    (Pipe (allOk ([([1, 2, 3], 1), ([4, 5], 2), ([6, 7, 8], 3)] :
        List (List Nat × Int))) (fun _ => true) (fun _ => true) 5).commitCalls.map
      Prod.fst =
      cookiesOf ([([1, 2, 3], 1), ([4, 5], 2), ([6, 7, 8], 3)] :
        List (List Nat × Int)) := by
  refine ⟨by decide, ⟨by decide, by decide⟩, ?_, ?_⟩
  · exact (claim_C3_overflow_split
      ([([1, 2, 3], 1), ([4, 5], 2), ([6, 7, 8], 3)] : List (List Nat × Int)) 5
      ⟨[1, 2, 3, 4, 5], [1, 2]⟩ [6, 7, 8] 3 (by decide)).1
  · exact (claim_C3_overflow_split
      ([([1, 2, 3], 1), ([4, 5], 2), ([6, 7, 8], 3)] : List (List Nat × Int)) 5
      ⟨[1, 2, 3, 4, 5], [1, 2]⟩ [6, 7, 8] 3 (by decide)).2.2.2.2.2
      (by decide) (by decide)

/-- C6: when the k-th `Process` call is the first to fail, the run
returns an aggregate matched by `ErrProcessFailed`; the process-stage
event sequence is exactly the first k batches each processed and their
cookies emitted, followed by the failing call and nothing else — so no
later batch is processed and no cookie of the failed batch or of any
later batch is ever emitted; the acknowledged cookies are an initial
segment of the cookies of the batches processed before the failure. -/
theorem claim_C6_process_failure {α : Type} (p : List (NextRes α)) (m k : Nat)
    (procRes commitRes : Nat → Bool) (bk : Batch α)
    (hget : (runNext m (⟨[], []⟩ : Batch α) p).1[k]? = some bk)
    (h1 : ∀ j, j < k → procRes j = true) (h2 : procRes k = false) :
    errorsIs (PipeRun (Pipe p procRes commitRes m)) ErrKind.processFailed ∧
    (Pipe p procRes commitRes m).procEvents =
      ((((runNext m (⟨[], []⟩ : Batch α) p).1.take k).map fun b =>
          ProcEv.call b.buf true :: b.cookies.map ProcEv.emit).flatten)
        ++ [ProcEv.call bk.buf false] ∧
    emitted (Pipe p procRes commitRes m).procEvents =
      ((((runNext m (⟨[], []⟩ : Batch α) p).1.take k).map Batch.cookies).flatten) ∧
    procCalls (Pipe p procRes commitRes m).procEvents =
      (((runNext m (⟨[], []⟩ : Batch α) p).1.take k).map fun b => (b.buf, true))
        ++ [(bk.buf, false)] ∧
    (∃ t, ((Pipe p procRes commitRes m).commitCalls.map Prod.fst) ++ t =
      ((((runNext m (⟨[], []⟩ : Batch α) p).1.take k).map Batch.cookies).flatten)) := by
  have h1' : ∀ j, j < k → procRes (0 + j) = true := by
    intro j hj
    simpa using h1 j hj
  have h2' : procRes (0 + k) = false := by simpa using h2
  have hrp := runProcess_fail_at (runNext m (⟨[], []⟩ : Batch α) p).1 procRes 0 k
    bk hget h1' h2'
  have hevs := Pipe_procEvents p procRes commitRes m
  rw [hrp] at hevs
  have hemit : emitted (Pipe p procRes commitRes m).procEvents =
      ((((runNext m (⟨[], []⟩ : Batch α) p).1.take k).map Batch.cookies).flatten) := by
    rw [hevs, emitted_append, emitted_all_true, emitted_cons_call]
    simp [emitted]
  refine ⟨?_, hevs, hemit, ?_, ?_⟩
  · have hperr := Pipe_procErr p procRes commitRes m
    rw [hrp] at hperr
    exact errorsIs_of_procErr _ hperr
  · rw [hevs, procCalls_append, procCalls_all_true, procCalls_cons_call]
    simp [procCalls]
  · have hcc := Pipe_commitCalls p procRes commitRes m
    rw [hrp] at hcc
    obtain ⟨t, ht⟩ := runCommit_calls_decomp (emitted
      (((((runNext m (⟨[], []⟩ : Batch α) p).1.take k).map fun b =>
          ProcEv.call b.buf true :: b.cookies.map ProcEv.emit).flatten)
        ++ [ProcEv.call bk.buf false])) commitRes 0
    refine ⟨t, ?_⟩
    rw [hcc, ht, emitted_append, emitted_all_true, emitted_cons_call]
    simp [emitted]

theorem claim_C6_witness :
    (runNext 2 (⟨[], []⟩ : Batch Nat)
        [NextRes.ok [1, 2] 1, NextRes.ok [3] 2]).1[0]? =
      some ⟨[1, 2], [1]⟩ ∧
    (∀ j, j < 0 → (fun _ => false : Nat → Bool) j = true) ∧
    (fun _ => false : Nat → Bool) 0 = false ∧
    errorsIs (PipeRun (Pipe [NextRes.ok [1, 2] 1, NextRes.ok [3] 2]
        (fun _ => false) (fun _ => true) 2)) ErrKind.processFailed ∧
    (Pipe ([NextRes.ok [1, 2] 1, NextRes.ok [3] 2] : List (NextRes Nat))
        (fun _ => false) (fun _ => true) 2).procEvents =
      [ProcEv.call [1, 2] false] ∧
    (Pipe ([NextRes.ok [1, 2] 1, NextRes.ok [3] 2] : List (NextRes Nat))
        (fun _ => false) (fun _ => true) 2).commitCalls = [] := by
  have h := claim_C6_process_failure
    ([NextRes.ok [1, 2] 1, NextRes.ok [3] 2] : List (NextRes Nat)) 2 0
    (fun _ => false) (fun _ => true) ⟨[1, 2], [1]⟩ (by decide)
    (fun j hj => absurd hj (Nat.not_lt_zero j)) rfl
  refine ⟨by decide, fun j hj => absurd hj (Nat.not_lt_zero j), rfl,
    h.1, ?_, by decide⟩
  have := h.2.1
  simpa using this

theorem map_const_true (l : List Int) :
    l.map (fun _ => true) = List.replicate l.length true := by
  induction l with
  | nil => rfl
  | cons a l ih => simp [ih, List.replicate_succ]

/-- C7: when the k-th `Commit` call (in receipt order) is the first to
fail, the run returns an aggregate matched by `ErrCommitFailed`; the
`Commit` calls made are exactly the first k received cookies, each
acknowledged, followed by the failing cookie — earlier acknowledgements
stand, and no cookie after the failing one in receipt order is ever
acknowledged, even one already buffered in the cookie channel. -/
theorem claim_C7_commit_failure {α : Type} (p : List (NextRes α)) (m k : Nat)
    (procRes commitRes : Nat → Bool) (ck : Int)
    (hget : (emitted (runProcess procRes 0
        (runNext m (⟨[], []⟩ : Batch α) p).1).1)[k]? = some ck)
    (h1 : ∀ j, j < k → commitRes j = true) (h2 : commitRes k = false) :
    errorsIs (PipeRun (Pipe p procRes commitRes m)) ErrKind.commitFailed ∧
    (Pipe p procRes commitRes m).commitCalls =
      ((emitted (Pipe p procRes commitRes m).procEvents).take k).map
          (fun c => (c, true)) ++ [(ck, false)] ∧
    (Pipe p procRes commitRes m).commitCalls.map Prod.fst =
      (emitted (Pipe p procRes commitRes m).procEvents).take (k + 1) ∧
    (Pipe p procRes commitRes m).commitCalls.map Prod.snd =
      List.replicate k true ++ [false] := by
  have h1' : ∀ j, j < k → commitRes (0 + j) = true := by
    intro j hj
    simpa using h1 j hj
  have h2' : commitRes (0 + k) = false := by simpa using h2
  have hrc := runCommit_fail_at (emitted (runProcess procRes 0
      (runNext m (⟨[], []⟩ : Batch α) p).1).1) commitRes 0 k ck hget h1' h2'
  have hcc := Pipe_commitCalls p procRes commitRes m
  rw [hrc] at hcc
  have hcerr := Pipe_commitErr p procRes commitRes m
  rw [hrc] at hcerr
  refine ⟨errorsIs_of_commitErr _ hcerr, hcc, ?_, ?_⟩
  · rw [hcc, Pipe_procEvents]
    rw [List.take_succ, hget]
    rw [List.map_append, map_fst_pair_true]
    simp
  · rw [hcc]
    have hlt : k < (emitted (runProcess procRes 0
        (runNext m (⟨[], []⟩ : Batch α) p).1).1).length :=
      (List.getElem?_eq_some.mp hget).1
    have hlen : ((emitted (runProcess procRes 0
        (runNext m (⟨[], []⟩ : Batch α) p).1).1).take k).length = k := by
      rw [List.length_take]
      omega
    rw [List.map_append, List.map_map]
    have hsnd : (Prod.snd ∘ fun c : Int => (c, true)) = fun _ => true := rfl
    rw [hsnd, map_const_true, hlen]
    rfl

theorem claim_C7_witness :
    (emitted (runProcess (fun _ => true) 0
        (runNext 5 (⟨[], []⟩ : Batch Nat)
          [NextRes.ok [1, 2] 1, NextRes.ok [3, 4] 2]).1).1)[1]? = some 2 ∧
    (∀ j, j < 1 → (fun n => n == 0 : Nat → Bool) j = true) ∧
    (fun n => n == 0 : Nat → Bool) 1 = false ∧
    errorsIs (PipeRun (Pipe ([NextRes.ok [1, 2] 1, NextRes.ok [3, 4] 2] :
        List (NextRes Nat)) (fun _ => true) (fun n => n == 0) 5))
      ErrKind.commitFailed ∧
    (Pipe ([NextRes.ok [1, 2] 1, NextRes.ok [3, 4] 2] : List (NextRes Nat))
        (fun _ => true) (fun n => n == 0) 5).commitCalls =
      [(1, true), (2, false)] := by
  have h := claim_C7_commit_failure ([NextRes.ok [1, 2] 1, NextRes.ok [3, 4] 2] :
      List (NextRes Nat)) 5 1 (fun _ => true) (fun n => n == 0) 2
      (by decide) (by decide) (by decide)
  refine ⟨by decide, by decide, by decide, h.1, ?_⟩
  rw [h.2.1]
  decide

end BufferedPipe
